import Mathlib

/-!
Verification of the 1:1 direct-messaging core of the Hucksta campus
marketplace front-end: conversation resolution (find-or-create one
conversation per unordered user pair), message loading and ordering,
message sending, push-delivery de-duplication, subscription teardown,
and the conversation-list grouping of the Messages view.

The embedding follows the source in src/components/ItemDetail.tsx,
which holds the ItemDetail component (handleMessageSeller, the
resolver) and the Messages component (fetchConversations,
fetchMessages, the realtime INSERT handler, handleSendMessage).
Rows of the conversations and messages tables become Lean structures;
the backing store becomes an explicit record threaded through the
operations; server-assigned ids become counters; timestamps become
naturals.
-/

namespace Hucksta

/-- A row of the conversations table: id, listing_id (context of the
first contact), buyer_id, seller_id, created_at. -/
structure Conv where
  id : Nat
  listing_id : Nat
  buyer_id : String
  seller_id : String
  created_at : Nat
deriving DecidableEq, Repr

/-- A row of the messages table: id, conversation_id, sender_id,
text, created_at. -/
structure Msg where
  id : Nat
  conversation_id : Nat
  sender_id : String
  text : String
  created_at : Nat
deriving DecidableEq, Repr

/-- The backing store: the two tables plus counters standing for
server-assigned ids. Rows are kept in insertion order. -/
structure Store where
  convs : List Conv
  msgs : List Msg
  nextConvId : Nat
  nextMsgId : Nat
deriving DecidableEq, Repr

/-- Store operations a call performs, recorded as a trace so that
claims about absent reads and writes can be stated. -/
inductive StoreOp where
  | fetchConvs
  | insertConv
  | insertMsg
deriving DecidableEq, Repr

/-- Failure of the resolver: no authenticated user (the early return
guard in handleMessageSeller). -/
inductive ResolveErr where
  | NotAuthenticated
deriving DecidableEq, Repr

/-- Failure of send: blank input (the early return guard in
handleSendMessage). -/
inductive SendErr where
  | EmptyMessage
deriving DecidableEq, Repr

/-- The directional participant filter of the conversations fetch:
buyer_id.eq.u,seller_id.eq.u (ItemDetail.tsx line 99 and line 357). -/
def participates (u : String) (c : Conv) : Bool :=
  c.buyer_id == u || c.seller_id == u

/-- The local post-filter of handleMessageSeller (lines 104-107):
the other participant equals the seller, in either directional
assignment of the buyer and seller columns. -/
def pairMatch (u other : String) (c : Conv) : Bool :=
  (c.buyer_id == u && c.seller_id == other) ||
  (c.buyer_id == other && c.seller_id == u)

/-- The body of handleMessageSeller past the auth guard
(ItemDetail.tsx lines 93-128): fetch every conversation where the
current user is buyer or seller, scan locally for the other user in
both directions, return the id when found, and otherwise insert a
new row with buyer_id the current user, seller_id the other user and
listing_id the item, returning the fresh id. The result carries the
new store and the trace of store operations. -/
def resolveAuthed (s : Store) (u sellerId : String) (listingId : Nat)
    (now : Nat) : Except ResolveErr Nat × Store × List StoreOp :=
  match (s.convs.filter (participates u)).find? (pairMatch u sellerId) with
  | some c => (Except.ok c.id, s, [StoreOp.fetchConvs])
  | none =>
    (Except.ok s.nextConvId,
      { s with convs := s.convs ++ [⟨s.nextConvId, listingId, u, sellerId, now⟩],
               nextConvId := s.nextConvId + 1 },
      [StoreOp.fetchConvs, StoreOp.insertConv])

/-- handleMessageSeller (ItemDetail.tsx lines 90-135): with no
authenticated user, return at once without touching the store;
otherwise run the find-or-create body. -/
def resolve (s : Store) (session : Option String) (sellerId : String)
    (listingId : Nat) (now : Nat) :
    Except ResolveErr Nat × Store × List StoreOp :=
  match session with
  | none => (Except.error ResolveErr.NotAuthenticated, s, [])
  | some u => resolveAuthed s u sellerId listingId now

/-- Ascending order on message timestamps, the order-by of the
messages fetch. -/
def msgLe (a b : Msg) : Prop := a.created_at ≤ b.created_at

/-- Descending order on conversation timestamps, the order-by of the
conversations fetch of the Messages view. -/
def convGe (a b : Conv) : Prop := b.created_at ≤ a.created_at

instance : DecidableRel msgLe := fun a b => Nat.decLe a.created_at b.created_at

instance : DecidableRel convGe := fun a b => Nat.decLe b.created_at a.created_at

instance : IsTotal Msg msgLe := ⟨fun a b => Nat.le_total a.created_at b.created_at⟩

instance : IsTrans Msg msgLe := ⟨fun _ _ _ => Nat.le_trans⟩

instance : IsTotal Conv convGe := ⟨fun a b => Nat.le_total b.created_at a.created_at⟩

instance : IsTrans Conv convGe := ⟨fun _ _ _ h h2 => Nat.le_trans h2 h⟩

/-- fetchMessages (ItemDetail.tsx lines 410-418): select the rows of
the conversation ordered ascending by created_at. The order-by of
the store is modelled as a stable sort on the timestamp. -/
def load (s : Store) (convId : Nat) : List Msg :=
  List.insertionSort msgLe (s.msgs.filter (fun m => m.conversation_id == convId))

/-- The trim applied to the input before sending: strip whitespace
from both ends, as the string trim of the host language does. -/
def trim (s : String) : String :=
  String.mk
    (((s.toList.dropWhile Char.isWhitespace).reverse.dropWhile Char.isWhitespace).reverse)

/-- handleSendMessage (ItemDetail.tsx lines 451-460): a blank input
(trimmed to the empty string) returns before any insert; otherwise
one message row with the trimmed text, the sender and the selected
conversation is inserted. -/
def send (s : Store) (convId : Nat) (sender : String) (input : String)
    (now : Nat) : Except SendErr Unit × Store :=
  if trim input = "" then (Except.error SendErr.EmptyMessage, s)
  else
    (Except.ok (),
      { s with msgs := s.msgs ++ [⟨s.nextMsgId, convId, sender, trim input, now⟩],
               nextMsgId := s.nextMsgId + 1 })

/-- The realtime INSERT handler (ItemDetail.tsx lines 430-435): a
pushed row already present by id is discarded, otherwise it is
appended. -/
def onInsert (prev : List Msg) (m : Msg) : List Msg :=
  if prev.any (fun x => x.id == m.id) then prev else prev ++ [m]

/-- The other participant of a row relative to the current user
(ItemDetail.tsx line 368): the seller when the current user is the
buyer, otherwise the buyer. -/
def otherOf (u : String) (c : Conv) : String :=
  if c.buyer_id == u then c.seller_id else c.buyer_id

/-- An entry of the conversation list the Messages view builds: the
underlying row spread together with the computed other_user_id. -/
structure CEntry where
  row : Conv
  other_user_id : String
deriving DecidableEq, Repr

/-- One step of the grouping reduce of fetchConversations
(ItemDetail.tsx lines 367-376): drop rows whose other participant is
the current user, drop rows whose other participant is already in
the accumulator, and otherwise append the row with its
other_user_id. -/
def groupStep (u : String) (acc : List CEntry) (conv : Conv) : List CEntry :=
  let otherId := otherOf u conv
  if otherId == u then acc
  else if acc.any (fun c => c.other_user_id == otherId) then acc
  else acc ++ [⟨conv, otherId⟩]

/-- The grouping reduce of fetchConversations over the fetched rows. -/
def groupConvs (u : String) (rows : List Conv) : List CEntry :=
  rows.foldl (groupStep u) []

/-- fetchConversations (ItemDetail.tsx lines 350-379): fetch every
row where the current user is buyer or seller, ordered descending by
created_at, then group to one entry per other user. -/
def fetchConversations (s : Store) (u : String) : List CEntry :=
  groupConvs u (List.insertionSort convGe (s.convs.filter (participates u)))

/-- The state of one open conversation view: whether the realtime
channel is still subscribed, and the message list. Modelled from the
spec: the push channel of the external store delivers insert events
only while the channel is subscribed, and removing the channel
(the cleanup at ItemDetail.tsx lines 437-439) releases it for good. -/
structure ChatView where
  subscribed : Bool
  messages : List Msg
deriving DecidableEq, Repr

/-- Delivery of one pushed insert event to the view: the INSERT
handler runs only while the channel is subscribed. -/
def deliver (v : ChatView) (m : Msg) : ChatView :=
  if v.subscribed then { v with messages := onInsert v.messages m } else v

/-- The cleanup of the subscription effect (ItemDetail.tsx lines
437-439): the channel is removed; nothing ever subscribes it again. -/
def closeView (v : ChatView) : ChatView := { v with subscribed := false }

/-- Delivery of a sequence of pushed insert events in order. -/
def deliverAll (v : ChatView) (ms : List Msg) : ChatView := ms.foldl deliver v

/-- Invariant of the grouping reduce: relative to the processed
prefix p of the fetched rows, every accumulator entry names an other
user distinct from the current user, the other users are pairwise
distinct, every entry carries the first row of the prefix with its
other user, and the other users of the accumulator are exactly the
other users occurring in the prefix. -/
def GroupInv (u : String) (p : List Conv) (acc : List CEntry) : Prop :=
  (∀ e ∈ acc, e.other_user_id ≠ u) ∧
  (acc.map CEntry.other_user_id).Nodup ∧
  (∀ e ∈ acc, p.find? (fun r => otherOf u r == e.other_user_id) = some e.row) ∧
  (∀ x : String, x ∈ acc.map CEntry.other_user_id ↔
    (x ≠ u ∧ ∃ r ∈ p, otherOf u r = x))

/-- A row matching the pair filter for current user u has u as one of
its two participants, hence passes the directional fetch filter. -/
theorem pairMatch_participates {u v : String} {c : Conv}
    (h : pairMatch u v c = true) : participates u c = true := by
  simp only [pairMatch, participates, Bool.or_eq_true, Bool.and_eq_true,
    beq_iff_eq] at h ⊢
  rcases h with ⟨h1, _⟩ | ⟨_, h2⟩
  · exact Or.inl h1
  · exact Or.inr h2

/-- The local scan over the directionally fetched rows agrees with a
scan of the whole conversations table: the fetch filter keeps every
row the pair filter can match. -/
theorem find?_filter_participates (u v : String) (l : List Conv) :
    (l.filter (participates u)).find? (pairMatch u v) =
      l.find? (pairMatch u v) := by
  induction l with
  | nil => rfl
  | cons c t ih =>
    cases hp : participates u c with
    | true =>
      cases hq : pairMatch u v c with
      | true => simp [List.filter_cons, hp, hq]
      | false => simp [List.filter_cons, hp, hq, ih]
    | false =>
      have hq : pairMatch u v c = false := by
        cases hq : pairMatch u v c with
        | true => rw [pairMatch_participates hq] at hp; cases hp
        | false => rfl
      simp [List.filter_cons, hp, hq, ih]

/-- The pair filter is symmetric in the two users. -/
theorem pairMatch_comm (u v : String) : pairMatch u v = pairMatch v u := by
  funext c
  simp [pairMatch, Bool.or_comm]

/-- When the scan of the conversations table finds a row for the
pair, resolve returns its id without writing. -/
theorem resolve_found {s : Store} {u v : String} {lid t : Nat} {c : Conv}
    (h : s.convs.find? (pairMatch u v) = some c) :
    resolve s (some u) v lid t = (Except.ok c.id, s, [StoreOp.fetchConvs]) := by
  show resolveAuthed s u v lid t = _
  unfold resolveAuthed
  rw [find?_filter_participates, h]

/-- When the scan of the conversations table finds no row for the
pair, resolve inserts one new row and returns its fresh id. -/
theorem resolve_not_found {s : Store} {u v : String} {lid t : Nat}
    (h : s.convs.find? (pairMatch u v) = none) :
    resolve s (some u) v lid t =
      (Except.ok s.nextConvId,
        { s with convs := s.convs ++ [⟨s.nextConvId, lid, u, v, t⟩],
                 nextConvId := s.nextConvId + 1 },
        [StoreOp.fetchConvs, StoreOp.insertConv]) := by
  show resolveAuthed s u v lid t = _
  unfold resolveAuthed
  rw [find?_filter_participates, h]

/-- After any successful resolve for the pair u, v, the resulting
store holds a row the pair scan finds, and its id is the returned
handle. -/
theorem resolve_ok_find {s : Store} {u v : String} {lid t : Nat} {c1 : Nat}
    {s1 : Store} {ops : List StoreOp}
    (h : resolve s (some u) v lid t = (Except.ok c1, s1, ops)) :
    ∃ c, s1.convs.find? (pairMatch u v) = some c ∧ c.id = c1 := by
  cases hf : s.convs.find? (pairMatch u v) with
  | some c =>
    rw [resolve_found hf] at h
    simp only [Prod.mk.injEq, Except.ok.injEq] at h
    obtain ⟨h1, h2, -⟩ := h
    exact ⟨c, h2 ▸ hf, h1⟩
  | none =>
    rw [resolve_not_found hf] at h
    simp only [Prod.mk.injEq, Except.ok.injEq] at h
    obtain ⟨h1, h2, -⟩ := h
    refine ⟨⟨s.nextConvId, lid, u, v, t⟩, ?_, h1⟩
    rw [← h2]
    simp [List.find?_append, hf, pairMatch]

/-- C1: resolving a conversation is symmetric in the roles: once
resolve for users X and Y has returned a conversation id, resolve
with the roles swapped returns the same conversation id, because the
scan over the fetched conversations checks both directional
assignments of the buyer and seller columns; the swapped call writes
nothing. -/
theorem resolve_roles_symmetric (s : Store) (X Y : String)
    (l1 l2 t1 t2 c1 : Nat) (s1 : Store) (ops1 : List StoreOp) (hne : X ≠ Y)
    (h1 : resolve s (some X) Y l1 t1 = (Except.ok c1, s1, ops1)) :
    resolve s1 (some Y) X l2 t2 = (Except.ok c1, s1, [StoreOp.fetchConvs]) := by
  obtain ⟨c, hf, hid⟩ := resolve_ok_find h1
  have hf2 : s1.convs.find? (pairMatch Y X) = some c := by
    rw [pairMatch_comm Y X]
    exact hf
  rw [resolve_found hf2, hid]

/-- Witness for C1 at a concrete input: alice resolves a chat with
bob on an empty store, then bob resolves a chat with alice and gets
the same conversation id 0 back with no write. -/
theorem resolve_roles_symmetric_witness :
    resolve ⟨[⟨0, 5, "alice", "bob", 10⟩], [], 1, 0⟩ (some "bob") "alice" 7 11 =
      (Except.ok 0, ⟨[⟨0, 5, "alice", "bob", 10⟩], [], 1, 0⟩,
        [StoreOp.fetchConvs]) :=
  resolve_roles_symmetric ⟨[], [], 0, 0⟩ "alice" "bob" 5 7 10 11 0
    ⟨[⟨0, 5, "alice", "bob", 10⟩], [], 1, 0⟩
    [StoreOp.fetchConvs, StoreOp.insertConv] (by decide) rfl

/-- C2: under sequential calls, resolving the same pair twice
returns the same conversation id both times: after the first call
has found or created the conversation, the second call returns the
same handle and writes nothing. -/
theorem resolve_repeat_same_handle (s : Store) (X Y : String)
    (l1 l2 t1 t2 c1 : Nat) (s1 : Store) (ops1 : List StoreOp) (hne : X ≠ Y)
    (h1 : resolve s (some X) Y l1 t1 = (Except.ok c1, s1, ops1)) :
    resolve s1 (some X) Y l2 t2 = (Except.ok c1, s1, [StoreOp.fetchConvs]) := by
  obtain ⟨c, hf, hid⟩ := resolve_ok_find h1
  rw [resolve_found hf, hid]

/-- Witness for C2 at a concrete input: alice resolves a chat with
bob twice in sequence; the second call returns the conversation id 0
created by the first and performs no insert. -/
theorem resolve_repeat_same_handle_witness :
    resolve ⟨[⟨0, 5, "alice", "bob", 10⟩], [], 1, 0⟩ (some "alice") "bob" 7 11 =
      (Except.ok 0, ⟨[⟨0, 5, "alice", "bob", 10⟩], [], 1, 0⟩,
        [StoreOp.fetchConvs]) :=
  resolve_repeat_same_handle ⟨[], [], 0, 0⟩ "alice" "bob" 5 7 10 11 0
    ⟨[⟨0, 5, "alice", "bob", 10⟩], [], 1, 0⟩
    [StoreOp.fetchConvs, StoreOp.insertConv] (by decide) rfl

/-- C3: when the scan finds an existing conversation of the
unordered pair, resolve returns its handle and performs no write;
when none is found, it inserts exactly one new row whose buyer_id is
the current user, whose seller_id is the other user and whose
listing_id is the context listing, and returns the fresh handle. -/
theorem resolve_find_or_create (s : Store) (u v : String) (lid t : Nat) :
    (∀ c, s.convs.find? (pairMatch u v) = some c →
        resolve s (some u) v lid t = (Except.ok c.id, s, [StoreOp.fetchConvs])) ∧
    (s.convs.find? (pairMatch u v) = none →
        resolve s (some u) v lid t =
          (Except.ok s.nextConvId,
            { s with convs := s.convs ++ [⟨s.nextConvId, lid, u, v, t⟩],
                     nextConvId := s.nextConvId + 1 },
            [StoreOp.fetchConvs, StoreOp.insertConv])) :=
  ⟨fun _ h => resolve_found h, fun h => resolve_not_found h⟩

/-- Witness for C3 at concrete inputs: on a store holding the pair
the handle comes back with no write, and on an empty store one row
with the given buyer, seller and listing context is inserted. -/
theorem resolve_find_or_create_witness :
    resolve ⟨[⟨0, 5, "alice", "bob", 10⟩], [], 1, 0⟩ (some "alice") "bob" 8 12 =
      (Except.ok 0, ⟨[⟨0, 5, "alice", "bob", 10⟩], [], 1, 0⟩,
        [StoreOp.fetchConvs]) ∧
    resolve ⟨[], [], 0, 0⟩ (some "alice") "bob" 5 10 =
      (Except.ok 0, ⟨[⟨0, 5, "alice", "bob", 10⟩], [], 1, 0⟩,
        [StoreOp.fetchConvs, StoreOp.insertConv]) :=
  ⟨(resolve_find_or_create ⟨[⟨0, 5, "alice", "bob", 10⟩], [], 1, 0⟩
      "alice" "bob" 8 12).1 ⟨0, 5, "alice", "bob", 10⟩ (by decide),
   (resolve_find_or_create ⟨[], [], 0, 0⟩ "alice" "bob" 5 10).2 (by decide)⟩

/-- C8: with no authenticated current user, resolve fails with
NotAuthenticated, leaves the store unchanged and performs no store
operation at all, neither a fetch nor an insert. -/
theorem resolve_unauthenticated (s : Store) (v : String) (lid t : Nat) :
    resolve s none v lid t = (Except.error ResolveErr.NotAuthenticated, s, []) :=
  rfl

/-- C4: the INSERT handler delivers a pushed message exactly once:
when at most one copy of the id is present, after the event exactly
one copy is present (the event is discarded when the load already
delivered the message), and a list of pairwise distinct ids stays
pairwise distinct, so the message list never holds two messages with
the same id. -/
theorem push_insert_exactly_once (prev : List Msg) (m : Msg) :
    (prev.countP (fun x => x.id == m.id) ≤ 1 →
      (onInsert prev m).countP (fun x => x.id == m.id) = 1) ∧
    ((prev.map Msg.id).Nodup → ((onInsert prev m).map Msg.id).Nodup) := by
  unfold onInsert
  cases ha : prev.any (fun x => x.id == m.id) with
  | true =>
    simp only [ha, if_true]
    constructor
    · intro hle
      have hpos : 0 < prev.countP (fun x => x.id == m.id) := by
        rw [List.countP_pos_iff]
        simpa using ha
      omega
    · exact id
  | false =>
    simp only [ha, if_false, Bool.false_eq_true]
    have h0 : ∀ a ∈ prev, ¬(a.id == m.id) = true := by
      simpa using ha
    constructor
    · intro _
      rw [List.countP_append, List.countP_eq_zero.mpr h0]
      simp [List.countP_cons]
    · intro hnd
      rw [List.map_append]
      rw [List.nodup_append]
      refine ⟨hnd, List.nodup_singleton _, ?_⟩
      intro x hx hx1
      simp only [List.map_cons, List.map_nil, List.mem_singleton] at hx1
      obtain ⟨a, hael, haid⟩ := List.mem_map.mp hx
      exact h0 a hael (by rw [haid, hx1]; exact beq_self_eq_true m.id)

/-- Witness for C4 at a concrete input: delivering a pushed message
to an empty list yields one copy of its id, and the ids stay
pairwise distinct. -/
theorem push_insert_exactly_once_witness :
    (onInsert [] ⟨0, 0, "alice", "hi", 1⟩).countP
      (fun x => x.id == (⟨0, 0, "alice", "hi", 1⟩ : Msg).id) = 1 ∧
    ((onInsert [] ⟨0, 0, "alice", "hi", 1⟩).map Msg.id).Nodup :=
  ⟨(push_insert_exactly_once [] ⟨0, 0, "alice", "hi", 1⟩).1 (by decide),
   (push_insert_exactly_once [] ⟨0, 0, "alice", "hi", 1⟩).2 (by decide)⟩

/-- C5: load returns the messages of the conversation as a
permutation of its stored rows sorted ascending by created_at, and
when the stored rows of the conversation carry strictly increasing
timestamps, load returns them in exactly that order. -/
theorem load_ordered (s : Store) (cid : Nat) :
    (load s cid).Perm (s.msgs.filter (fun m => m.conversation_id == cid)) ∧
    (load s cid).Pairwise msgLe ∧
    ((s.msgs.filter (fun m => m.conversation_id == cid)).Pairwise
        (fun a b => a.created_at < b.created_at) →
      load s cid = s.msgs.filter (fun m => m.conversation_id == cid)) := by
  refine ⟨List.perm_insertionSort msgLe _, List.sorted_insertionSort msgLe _,
    fun h => ?_⟩
  exact List.Sorted.insertionSort_eq (h.imp Nat.le_of_lt)

/-- Witness for C5 at a concrete input: a conversation with three
messages inserted at times 1, 2, 3 (interleaved in the table with a
message of another conversation) loads in exactly that order. -/
theorem load_ordered_witness :
    load ⟨[], [⟨0, 0, "alice", "hello", 1⟩, ⟨1, 0, "bob", "hi", 2⟩,
        ⟨2, 1, "carol", "zz", 5⟩, ⟨3, 0, "alice", "yo", 3⟩], 0, 4⟩ 0 =
      [⟨0, 0, "alice", "hello", 1⟩, ⟨1, 0, "bob", "hi", 2⟩,
       ⟨3, 0, "alice", "yo", 3⟩] :=
  (load_ordered ⟨[], [⟨0, 0, "alice", "hello", 1⟩, ⟨1, 0, "bob", "hi", 2⟩,
      ⟨2, 1, "carol", "zz", 5⟩, ⟨3, 0, "alice", "yo", 3⟩], 0, 4⟩ 0).2.2
    (by decide)

/-- C6: send with an input whose trimmed form is empty rejects with
EmptyMessage and leaves the message table untouched; send with a
nonblank input inserts exactly one message row and succeeds. -/
theorem send_empty_rejected (s : Store) (cid : Nat) (sender input : String)
    (now : Nat) :
    (trim input = "" →
      send s cid sender input now = (Except.error SendErr.EmptyMessage, s)) ∧
    (trim input ≠ "" →
      send s cid sender input now =
        (Except.ok (),
          { s with msgs := s.msgs ++ [⟨s.nextMsgId, cid, sender, trim input, now⟩],
                   nextMsgId := s.nextMsgId + 1 })) := by
  constructor <;> intro h <;> simp [send, h]

/-- Witness for C6 at concrete inputs: a whitespace-only input is
rejected with no state change, and a nonblank input inserts one
trimmed message row. -/
theorem send_empty_rejected_witness :
    send ⟨[], [], 0, 0⟩ 0 "alice" "   " 9 =
      (Except.error SendErr.EmptyMessage, ⟨[], [], 0, 0⟩) ∧
    send ⟨[], [], 0, 0⟩ 0 "alice" " hi " 9 =
      (Except.ok (), ⟨[], [⟨0, 0, "alice", "hi", 9⟩], 0, 1⟩) :=
  ⟨(send_empty_rejected ⟨[], [], 0, 0⟩ 0 "alice" "   " 9).1 (by decide),
   (send_empty_rejected ⟨[], [], 0, 0⟩ 0 "alice" " hi " 9).2 (by decide)⟩

/-- Delivery to a view whose subscription is released changes
nothing, whatever the sequence of pushed events. -/
theorem deliverAll_unsubscribed (ms : List Msg) (w : ChatView)
    (h : w.subscribed = false) : deliverAll w ms = w := by
  induction ms generalizing w with
  | nil => rfl
  | cons m t ih =>
    have hd : deliver w m = w := by simp [deliver, h]
    show List.foldl deliver (deliver w m) t = w
    rw [hd]
    exact ih w h

/-- C7: a released subscription is terminal: after the view closes,
no pushed insert event changes the message list, and the
subscription never resumes. -/
theorem unsubscribe_terminal (v : ChatView) (ms : List Msg) :
    (deliverAll (closeView v) ms).messages = v.messages ∧
    (deliverAll (closeView v) ms).subscribed = false := by
  rw [deliverAll_unsubscribed ms (closeView v) rfl]
  exact ⟨rfl, rfl⟩

/-- Every entry the grouping reduce produces beyond the accumulator
carries one of the reduced rows. -/
theorem mem_foldl_groupStep (u : String) :
    ∀ (rows : List Conv) (acc : List CEntry) (e : CEntry),
      e ∈ rows.foldl (groupStep u) acc → e ∈ acc ∨ e.row ∈ rows := by
  intro rows
  induction rows with
  | nil => exact fun acc e h => Or.inl h
  | cons r t ih =>
    intro acc e h
    rcases ih (groupStep u acc r) e h with h1 | h1
    · simp only [groupStep] at h1
      split at h1
      · exact Or.inl h1
      · split at h1
        · exact Or.inl h1
        · rcases List.mem_append.mp h1 with h2 | h2
          · exact Or.inl h2
          · rw [List.mem_singleton.mp h2]
            exact Or.inr (List.mem_cons_self r t)
    · exact Or.inr (List.mem_cons_of_mem r h1)

/-- Every entry of the conversation list of the Messages view has
the current user as buyer or seller of its row: the list is built
only from rows the directional fetch returned. -/
theorem fetchConversations_participant {s : Store} {u : String} {e : CEntry}
    (he : e ∈ fetchConversations s u) :
    e.row.buyer_id = u ∨ e.row.seller_id = u := by
  rcases mem_foldl_groupStep u
      (List.insertionSort convGe (s.convs.filter (participates u))) [] e he with
    h | h
  · simp at h
  · have hmem : e.row ∈ s.convs.filter (participates u) :=
      (List.perm_insertionSort convGe _).mem_iff.mp h
    have hp : participates u e.row = true := List.of_mem_filter hmem
    simpa [participates, beq_iff_eq] using hp

/-- C9: a message inserted through send with the current user as
sender into a conversation drawn from the fetched conversation list
always has its sender among the two participants of that
conversation: every row newly present after the send carries
sender_id equal to the buyer or the seller of the target row. -/
theorem sent_sender_in_participants (s : Store) (u : String) (e : CEntry)
    (he : e ∈ fetchConversations s u) (s2 : Store) (input : String) (now : Nat)
    (s3 : Store) (hok : send s2 e.row.id u input now = (Except.ok (), s3)) :
    ∀ m ∈ s3.msgs, m ∉ s2.msgs →
      m.sender_id = e.row.buyer_id ∨ m.sender_id = e.row.seller_id := by
  intro m hm hnm
  have hmu : m.sender_id = u := by
    by_cases ht : trim input = ""
    · simp [send, ht] at hok
    · simp only [send, if_neg ht, Prod.mk.injEq, true_and] at hok
      rw [← hok] at hm
      rcases List.mem_append.mp hm with h2 | h2
      · exact absurd h2 hnm
      · rw [List.mem_singleton.mp h2]
  rcases fetchConversations_participant he with h | h
  · exact Or.inl (by rw [hmu, h])
  · exact Or.inr (by rw [hmu, h])

/-- Witness for C9 at a concrete input: bob opens the conversation
the store holds with alice and sends a message; the inserted row has
bob, one of the two participants, as sender. -/
theorem sent_sender_in_participants_witness :
    (⟨0, 0, "bob", "hi", 3⟩ : Msg).sender_id =
      (⟨0, 5, "alice", "bob", 10⟩ : Conv).buyer_id ∨
    (⟨0, 0, "bob", "hi", 3⟩ : Msg).sender_id =
      (⟨0, 5, "alice", "bob", 10⟩ : Conv).seller_id :=
  sent_sender_in_participants ⟨[⟨0, 5, "alice", "bob", 10⟩], [], 1, 0⟩ "bob"
    ⟨⟨0, 5, "alice", "bob", 10⟩, "alice"⟩ (by decide) ⟨[], [], 0, 0⟩ "hi" 3
    ⟨[], [⟨0, 0, "bob", "hi", 3⟩], 0, 1⟩ rfl
    ⟨0, 0, "bob", "hi", 3⟩ (by decide) (by decide)

/-- Extending the processed prefix by a row leaves every recorded
first occurrence in place. -/
theorem find?_append_some {p : List Conv} {q : Conv → Bool} {c : Conv}
    (h : p.find? q = some c) (r : Conv) : (p ++ [r]).find? q = some c := by
  simp [List.find?_append, h]

/-- One step of the grouping reduce preserves the grouping
invariant, the processed prefix growing by the reduced row. -/
theorem groupInv_step {u : String} {p : List Conv} {acc : List CEntry}
    (h : GroupInv u p acc) (conv : Conv) :
    GroupInv u (p ++ [conv]) (groupStep u acc conv) := by
  obtain ⟨h1, h2, h3, h4⟩ := h
  simp only [groupStep]
  by_cases ho : (otherOf u conv == u) = true
  · rw [if_pos ho]
    rw [beq_iff_eq] at ho
    refine ⟨h1, h2, fun e he => find?_append_some (h3 e he) conv, fun x => ?_⟩
    rw [h4 x]
    constructor
    · rintro ⟨hxu, r, hr, hro⟩
      exact ⟨hxu, r, List.mem_append_left _ hr, hro⟩
    · rintro ⟨hxu, r, hr, hro⟩
      rcases List.mem_append.mp hr with hr | hr
      · exact ⟨hxu, r, hr, hro⟩
      · rw [List.mem_singleton.mp hr] at hro
        exact absurd (hro.symm.trans ho) hxu
  · rw [if_neg ho]
    by_cases ha : (acc.any fun c => c.other_user_id == otherOf u conv) = true
    · rw [if_pos ha]
      refine ⟨h1, h2, fun e he => find?_append_some (h3 e he) conv, fun x => ?_⟩
      rw [h4 x]
      constructor
      · rintro ⟨hxu, r, hr, hro⟩
        exact ⟨hxu, r, List.mem_append_left _ hr, hro⟩
      · rintro ⟨hxu, r, hr, hro⟩
        rcases List.mem_append.mp hr with hr | hr
        · exact ⟨hxu, r, hr, hro⟩
        · rw [List.mem_singleton.mp hr] at hro
          obtain ⟨e, he, heq⟩ := List.any_eq_true.mp ha
          rw [beq_iff_eq] at heq
          have hmem : otherOf u conv ∈ acc.map CEntry.other_user_id :=
            heq ▸ List.mem_map_of_mem CEntry.other_user_id he
          obtain ⟨-, r2, hr2, hro2⟩ := (h4 _).mp hmem
          exact ⟨hxu, r2, hr2, hro2.trans hro⟩
    · rw [if_neg ha]
      have hnotin : otherOf u conv ∉ acc.map CEntry.other_user_id := by
        intro hmem
        obtain ⟨e, he, heq⟩ := List.mem_map.mp hmem
        exact ha (List.any_eq_true.mpr ⟨e, he, by rw [heq]; exact beq_self_eq_true _⟩)
      have hou : otherOf u conv ≠ u := by
        intro hequ
        exact ho (by rw [hequ]; exact beq_self_eq_true _)
      have hpnone : p.find? (fun r => otherOf u r == otherOf u conv) = none := by
        rw [List.find?_eq_none]
        intro r hr hbeq
        rw [beq_iff_eq] at hbeq
        exact hnotin ((h4 _).mpr ⟨hou, r, hr, hbeq⟩)
      refine ⟨?_, ?_, ?_, ?_⟩
      · intro e he
        rcases List.mem_append.mp he with he | he
        · exact h1 e he
        · rw [List.mem_singleton.mp he]
          exact hou
      · rw [List.map_append, List.nodup_append]
        refine ⟨h2, List.nodup_singleton _, ?_⟩
        intro x hx hx1
        simp only [List.map_cons, List.map_nil, List.mem_singleton] at hx1
        exact hnotin (hx1 ▸ hx)
      · intro e he
        rcases List.mem_append.mp he with he | he
        · exact find?_append_some (h3 e he) conv
        · rw [List.mem_singleton.mp he]
          simp [List.find?_append, hpnone]
      · intro x
        rw [List.map_append]
        constructor
        · intro hx
          rcases List.mem_append.mp hx with hx | hx
          · obtain ⟨hxu, r, hr, hro⟩ := (h4 x).mp hx
            exact ⟨hxu, r, List.mem_append_left _ hr, hro⟩
          · have hxo : x = otherOf u conv := by simpa using hx
            exact ⟨hxo ▸ hou, conv,
              List.mem_append_right _ (List.mem_singleton_self _), hxo.symm⟩
        · rintro ⟨hxu, r, hr, hro⟩
          rcases List.mem_append.mp hr with hr | hr
          · exact List.mem_append_left _ ((h4 x).mpr ⟨hxu, r, hr, hro⟩)
          · apply List.mem_append_right
            rw [List.mem_singleton.mp hr] at hro
            simp [← hro]

/-- The grouping reduce carries the invariant over any suffix of
rows, starting from any prefix and matching accumulator. -/
theorem groupInv_foldl (u : String) :
    ∀ (rows p : List Conv) (acc : List CEntry), GroupInv u p acc →
      GroupInv u (p ++ rows) (rows.foldl (groupStep u) acc) := by
  intro rows
  induction rows with
  | nil =>
    intro p acc h
    simpa using h
  | cons r t ih =>
    intro p acc h
    have h2 := groupInv_step h r
    have h3 := ih (p ++ [r]) (groupStep u acc r) h2
    simpa [List.append_assoc] using h3

/-- The conversation list the grouping reduce builds from the
fetched rows satisfies the grouping invariant over the whole row
list. -/
theorem groupInv_groupConvs (u : String) (rows : List Conv) :
    GroupInv u rows (groupConvs u rows) := by
  have h0 : GroupInv u [] [] := by
    refine ⟨by simp, by simp, by simp, fun x => by simp⟩
  simpa using groupInv_foldl u rows [] [] h0

/-- Over a pairwise-ordered list, the element find? returns is first:
any other element satisfying the test is the found one or lies to
its right. -/
theorem find?_first_pairwise {α : Type} {p : α → Bool} {R : α → α → Prop} :
    ∀ {l : List α} {a : α}, l.Pairwise R → l.find? p = some a →
      ∀ b ∈ l, p b = true → a = b ∨ R a b := by
  intro l
  induction l with
  | nil =>
    intro a _ hf
    simp at hf
  | cons x t ih =>
    intro a hp hf b hb hpb
    obtain ⟨hx, ht⟩ := List.pairwise_cons.mp hp
    by_cases hpx : p x = true
    · rw [List.find?_cons_of_pos _ hpx] at hf
      have hax : x = a := Option.some_inj.mp hf
      rcases List.mem_cons.mp hb with hbx | hbt
      · exact Or.inl (by rw [← hax, hbx])
      · exact Or.inr (by rw [← hax]; exact hx b hbt)
    · rw [List.find?_cons_of_neg _ hpx] at hf
      rcases List.mem_cons.mp hb with hbx | hbt
      · rw [hbx] at hpb
        exact absurd hpb hpx
      · exact ih ht hf b hbt hpb

/-- C10: the conversation list built from store rows sorted
descending by created_at holds at most one entry per distinct other
user, drops rows whose other participant is the current user, and
for each kept other user carries the first, hence newest, row of
that pair. -/
theorem conversation_list_grouping (u : String) (rows : List Conv)
    (hs : rows.Pairwise convGe) :
    (∀ e ∈ groupConvs u rows, e.other_user_id ≠ u) ∧
    ((groupConvs u rows).map CEntry.other_user_id).Nodup ∧
    (∀ e ∈ groupConvs u rows,
      rows.find? (fun r => otherOf u r == e.other_user_id) = some e.row) ∧
    (∀ e ∈ groupConvs u rows, ∀ r ∈ rows,
      otherOf u r = e.other_user_id → r.created_at ≤ e.row.created_at) := by
  obtain ⟨h1, h2, h3, -⟩ := groupInv_groupConvs u rows
  refine ⟨h1, h2, h3, ?_⟩
  intro e he r hr hro
  rcases find?_first_pairwise hs (h3 e he) r hr (by simp [hro]) with h | h
  · rw [← h]
  · exact h

/-- Witness for C10 at a concrete input: from two rows of the same
pair sorted newest first, the list keeps the newest row under the
other user bob, and the older row of the pair is not newer. -/
theorem conversation_list_grouping_witness :
    ([⟨1, 6, "alice", "bob", 20⟩, ⟨0, 5, "bob", "alice", 10⟩] : List Conv).find?
        (fun r => otherOf "alice" r == "bob") = some ⟨1, 6, "alice", "bob", 20⟩ ∧
    (10 : Nat) ≤ 20 :=
  ⟨(conversation_list_grouping "alice"
      [⟨1, 6, "alice", "bob", 20⟩, ⟨0, 5, "bob", "alice", 10⟩] (by decide)).2.2.1
      ⟨⟨1, 6, "alice", "bob", 20⟩, "bob"⟩ (by decide),
   (conversation_list_grouping "alice"
      [⟨1, 6, "alice", "bob", 20⟩, ⟨0, 5, "bob", "alice", 10⟩] (by decide)).2.2.2
      ⟨⟨1, 6, "alice", "bob", 20⟩, "bob"⟩ (by decide)
      ⟨0, 5, "bob", "alice", 10⟩ (by decide) rfl⟩

end Hucksta
